import Mathlib

/-!
Verification development for the random network-assembly engine
(`opencog/generate`): a shallow embedding of `RandomCallback.cc` (the
selection policy, its distribution caches, the backtracking frame stack,
the solution counter) and of the pole-pair registration loop of
`GenerateSCM.cc`, with theorems settling the frozen specification claims.

Modelling conventions:
- Atom handles are natural numbers; a section atom is modelled by its
  identity (the unique point atom) together with its connector sequence.
- `std::map` caches are modelled as functions `Con → Option _`.
- The shared random stream `rangen` is modelled as a stream of raw draws
  `Nat → Nat` plus a position; the mt19937 engine seeded from
  `std::random_device` is embedded separately (integer-exact) as
  `rangenOut`.
- `std::discrete_distribution` is modelled by its weight vector (pdf);
  whenever the total weight is positive a draw selects an index of
  positive weight (the real distribution returns index `i` with
  probability `pdf i / total`, so exactly the positive-weight indices
  occur).  A zero-total pdf violates the distribution's precondition
  (the standard requires `0 < S`); that case is modelled as the deployed
  libstdc++ behaves — normalisation by the zero total makes every
  cumulative weight NaN, every comparison against the drawn probability
  fails, and `operator()` falls through to index 0.
- The `while (true)` redraw loop of `select_from_open` is embedded with a
  fuel-indexed approximation: the outer `Option` of `selectFromOpen`
  is `none` when the loop has not terminated within the given fuel, so a
  terminating execution of the C++ code corresponds to `some` for every
  sufficiently large fuel.
- Fallible lookups return `Option`; dead ends are the ordinary value
  `none` (`Handle::UNDEFINED`), never an exception, and every embedded
  operation is a total function.
-/

set_option maxRecDepth 10000

namespace Generate

/-- Connector handles (atom ids). -/
abbrev Con := Nat

/-- A section atom: `sid` is the identity of its point atom (outgoing
atom 0), `conseq` the connector sequence (outgoing set of outgoing
atom 1).  Handle equality on sections is equality of both components. -/
structure Sect where
  sid : Nat
  conseq : List Con
deriving DecidableEq

/-- Default section used for (never-taken) out-of-range list indexing. -/
def sdflt : Sect := ⟨0, []⟩

/-- The part of a `Frame` read by the policy: `_open_sections`. -/
structure Frame' where
  open_sections : List Sect
deriving DecidableEq

/-- The `OpenSelections` record: the open-connector candidate-list cache
`_opensect` and the open-connector distribution cache `_opendi`
(a cached `std::discrete_distribution` is represented by its pdf). -/
structure OpenSel where
  opensect : Con → Option (List Sect)
  opendi : Con → Option (List ℚ)

/-- The mutable state of a `RandomCallback`: the current
`OpenSelections`, the `_opensel_stack`, the lexis distribution cache
`_distmap`, the random stream (`rng` = raw draws, `rix` = position), and
`_num_solutions_found`. -/
structure RCState where
  opensel : OpenSel
  stack : List OpenSel
  distmap : Con → Option (List ℚ)
  rng : Nat → Nat
  rix : Nat
  nsol : Nat

/-- `std::map` insert-or-assign on a function-modelled map. -/
def updF {α : Type} (m : Con → Option α) (c : Con) (v : α) : Con → Option α :=
  fun x => if x = c then some v else m x

theorem updF_self {α : Type} (m : Con → Option α) (c : Con) (v : α) :
    updF m c v c = some v := by simp [updF]

theorem updF_ne {α : Type} (m : Con → Option α) (c : Con) (v : α)
    (x : Con) (h : x ≠ c) : updF m c v x = m x := by simp [updF, h]

/-- Indices of positive weight in a pdf: exactly the indices a
`std::discrete_distribution` built from that pdf can return. -/
def posIdxs (pdf : List ℚ) : List Nat :=
  (List.range pdf.length).filter (fun i => decide (0 < pdf.getD i 0))

/-- Model of one draw `dist(rangen)` from a `std::discrete_distribution`
with weight vector `pdf`, given the raw engine draw `r`.  With positive
total weight an index of positive weight is selected (the real
distribution selects index `i` with probability `pdf i / total`, so
exactly the positive-weight indices occur).  A zero-total pdf violates
the distribution's construction precondition (`0 < S`); that case is
modelled after the deployed libstdc++, whose `operator()` then returns
index 0 (the result is always `some`, mirroring that a draw always
produces an index). -/
def drawDist (pdf : List ℚ) (r : Nat) : Option Nat :=
  if posIdxs pdf = [] then some 0
  else some ((posIdxs pdf).getD (r % (posIdxs pdf).length) 0)

/-- The pdf built by `select_from_lexis`: for each candidate section the
`FloatValue` stored under the weight key (`getW`), else `0.0`. -/
def lexPdf (l : List Sect) (getW : Sect → Option ℚ) : List ℚ :=
  l.map (fun s => (getW s).getD 0)

/-- The candidate-list scan of `select_from_open`: every open section is
pushed once per connector of its sequence equal to `to_con`. -/
def collectOpen : List Sect → Con → List Sect
  | [], _ => []
  | s :: rest, c =>
      ((s.conseq.filter (fun x => x == c)).map (fun _ => s)) ++ collectOpen rest c

/-- Fuel-indexed unfolding of the rejection-sampling `while (true)` loop
at the end of `select_from_open`: returns the stream position of the
first draw (starting at `rix`) whose selected candidate differs from
`fm`, or `none` if no such draw occurs within `fuel` iterations. -/
def redrawFind (l : List Sect) (fm : Sect) (pdf : List ℚ) (rng : Nat → Nat) :
    Nat → Nat → Option Nat
  | _, 0 => none
  | rix, fuel + 1 =>
      if l.getD ((drawDist pdf (rng rix)).getD 0) sdflt ≠ fm then some rix
      else redrawFind l fm pdf rng (rix + 1) fuel

/-- The fresh-build path of `RandomCallback::select_from_open` (taken
when no distribution is cached for `to_con`): scan the frame, store the
candidate list, handle the empty / single / only-self cases, create the
uniform distribution, and draw (rejecting the requester). -/
def sfoFresh (frame : Frame') (fm_sect : Sect) (to_con : Con)
    (st : RCState) (fuel : Nat) : Option (Option Sect × RCState) :=
  let to_sects := collectOpen frame.open_sections to_con
  let st1 : RCState :=
    { st with opensel := { st.opensel with
        opensect := updF st.opensel.opensect to_con to_sects } }
  if to_sects = [] then some (none, st1)
  else
    let disallow_self : Bool := true
    if to_sects.length = 1 then
      if disallow_self = true ∧ to_sects.getD 0 sdflt ≠ fm_sect then
        some (some (to_sects.getD 0 sdflt), st1)
      else some (none, st1)
    else
      if disallow_self = true ∧ (∀ s ∈ to_sects, s = fm_sect) then
        some (none, st1)
      else
        let pdf : List ℚ := List.replicate to_sects.length 1
        let st2 : RCState :=
          { st1 with opensel := { st1.opensel with
              opendi := updF st1.opensel.opendi to_con pdf } }
        if disallow_self = false then
          some (some (to_sects.getD ((drawDist pdf (st2.rng st2.rix)).getD 0) sdflt),
                { st2 with rix := st2.rix + 1 })
        else
          match redrawFind to_sects fm_sect pdf st2.rng st2.rix fuel with
          | some j =>
              some (some (to_sects.getD ((drawDist pdf (st2.rng j)).getD 0) sdflt),
                    { st2 with rix := j + 1 })
          | none => none

/-- `RandomCallback::select_from_open`.  The outer `Option` is the
fuel-indexed termination approximation of the trailing redraw loop:
`none` means the loop did not terminate within `fuel` draws (the outer
`Option` is never `none` on the paths that do not reach the loop).
Inner `none` is `Handle::UNDEFINED` (dead end).  Note the branch reusing
a cached distribution draws and returns without any self check; the
(unreachable under the cache invariant) case of a cached distribution
with no cached candidate list — undefined behaviour in the C++
(`tosit->second` with `tosit == end()`) — is modelled as a dead end. -/
def selectFromOpen (frame : Frame') (fm_sect : Sect) (to_con : Con)
    (st : RCState) (fuel : Nat) : Option (Option Sect × RCState) :=
  if st.opensel.opensect to_con = some [] then some (none, st)
  else
    match st.opensel.opendi to_con with
    | some pdf =>
        match st.opensel.opensect to_con with
        | some l =>
            some (some (l.getD ((drawDist pdf (st.rng st.rix)).getD 0) sdflt),
                  { st with rix := st.rix + 1 })
        | none => some (none, st)
    | none => sfoFresh frame fm_sect to_con st fuel

/-- `RandomCallback::select_from_lexis`.  `sections` is
`Dictionary::sections` (the Dictionary implementation is not part of the
embedded sources, so the lookup is a parameter), `getW` the weight-key
lookup, `uniq` is `create_unique_section` (LinkStyle, also external):
the policy's behaviour is uniform in both.  A dead end
(`Handle::UNDEFINED`) is the value `none`. -/
def selectFromLexis (sections : Con → List Sect) (getW : Sect → Option ℚ)
    (uniq : Sect → Sect) (to_con : Con) (st : RCState) :
    Option Sect × RCState :=
  let to_sects := sections to_con
  if to_sects = [] then (none, st)
  else
    match st.distmap to_con with
    | some pdf =>
        ((drawDist pdf (st.rng st.rix)).map (fun i => uniq (to_sects.getD i sdflt)),
         { st with rix := st.rix + 1 })
    | none =>
        let pdf := lexPdf to_sects getW
        let st1 : RCState := { st with distmap := updF st.distmap to_con pdf }
        ((drawDist pdf (st1.rng st1.rix)).map (fun i => uniq (to_sects.getD i sdflt)),
         { st1 with rix := st1.rix + 1 })

/-- `RandomCallback::select`: try the open frontier first (when the
parameters enable reuse), then fall back to the lexis with the updated
state.  The outer `Option` propagates the fuel approximation of
`selectFromOpen`. -/
def selectC (connect_existing : Bool) (sections : Con → List Sect)
    (getW : Sect → Option ℚ) (uniq : Sect → Sect) (frame : Frame')
    (fm_sect : Sect) (to_con : Con) (st : RCState) (fuel : Nat) :
    Option (Option Sect × RCState) :=
  if connect_existing then
    match selectFromOpen frame fm_sect to_con st fuel with
    | none => none
    | some (some h, st1) => some (some h, st1)
    | some (none, st1) => some (selectFromLexis sections getW uniq to_con st1)
  else some (selectFromLexis sections getW uniq to_con st)

/-- `RandomCallback::push_frame`: save the current `OpenSelections` on
the stack and clear both open caches. -/
def pushFrame (st : RCState) : RCState :=
  { st with stack := st.opensel :: st.stack,
            opensel := ⟨fun _ => none, fun _ => none⟩ }

/-- `RandomCallback::pop_frame`: restore the most recently saved
`OpenSelections`.  `top()`/`pop()` on an empty stack is undefined
behaviour in C++ and unreachable under the driver's LIFO discipline; it
is modelled as a no-op. -/
def popFrame (st : RCState) : RCState :=
  match st.stack with
  | [] => st
  | o :: rest => { st with opensel := o, stack := rest }

/-- The `RandomParameters` fields read by `RandomCallback::step`:
`max_solutions` and the outcome of `RandomParameters::step` (whose
implementation is external to the policy). -/
structure Parms where
  max_solutions : Nat
  pstep : Bool

/-- `RandomCallback::step`: `if (max_solutions < num_solutions_found)
return false; return parms.step(frm);` — note the strict `<`. -/
def rcStep (p : Parms) (st : RCState) : Bool :=
  if p.max_solutions < st.nsol then false else p.pstep

/-- `RandomCallback::solution`: increment `_num_solutions_found` (and
record the network, which does not affect the counter). -/
def rcSolution (st : RCState) : RCState :=
  { st with nsol := st.nsol + 1 }

/-- Modelled from the spec: the search driver (`Aggregate`, not among
the embedded sources) per §4.4 — before each search step it calls
`step(frame)` and halts the whole search when that returns `false`;
each step may record one accepted complete branch via `solution(frame)`
(`sol? n` says whether the step taken with `fuel = n+1` remaining finds
a solution). -/
def driveLoop (p : Parms) (sol? : Nat → Bool) : Nat → RCState → RCState
  | 0, st => st
  | fuel + 1, st =>
      if rcStep p st then
        driveLoop p sol? fuel (if sol? fuel then rcSolution st else st)
      else st

/-! ### The shared random stream

`RandomCallback.cc` declares
`static std::random_device seed; static std::mt19937 rangen(seed());`:
one mt19937 engine, seeded once at static initialisation with a value
drawn from the operating system's entropy device.  The device value is
an ambient input of every run (`d` below), not a caller-suppliable
parameter.  The engine itself is embedded integer-exactly (32-bit MT19937
as specified for `std::mt19937`): state initialisation, the in-place
twist, and the tempering of extracted outputs. -/

/-- One step of mt19937 state initialisation:
`x[i] = 1812433253 * (x[i-1] xor (x[i-1] >> 30)) + i (mod 2^32)`. -/
def mtInitAux (prev i : Nat) : Nat :=
  (1812433253 * (prev ^^^ (prev >>> 30)) + i) % 4294967296

/-- The seeded mt19937 state array: `x[0] = seed (mod 2^32)`, then the
`mtInitAux` recurrence. -/
def mtInit (sd : Nat) : Nat → Nat
  | 0 => sd % 4294967296
  | i + 1 => mtInitAux (mtInit sd i) (i + 1)

/-- One new word of the in-place mt19937 twist: `acc` holds the already
twisted words `0 .. i-1` of the current round (so positions `≥ 227` and
the wrap-around at `623` read this-round values, as the in-place C++
loop does), `old` the previous round. -/
def twistStep (old : Nat → Nat) (acc : List Nat) (i : Nat) : Nat :=
  let xi1 := if i = 623 then acc.getD 0 0 else old (i + 1)
  let y := Nat.lor (Nat.land (old i) 2147483648) (Nat.land xi1 2147483647)
  (y >>> 1) ^^^ (if y % 2 = 1 then 2567483615 else 0) ^^^
    (if i ≤ 226 then old (i + 397) else acc.getD (i - 227) 0)

/-- The first `n` words of a twist round, in order. -/
def twistAcc (old : Nat → Nat) : Nat → List Nat
  | 0 => []
  | i + 1 => twistAcc old i ++ [twistStep old (twistAcc old i) i]

/-- The full twisted round as an array. -/
def mtRound (old : Nat → Nat) : Nat → Nat :=
  fun i => (twistAcc old (i + 1)).getD i 0

/-- The mt19937 state after `k` twist rounds of the state seeded with
`sd` (outputs are extracted from rounds `≥ 1`). -/
def mtA (sd : Nat) : Nat → Nat → Nat
  | 0 => mtInit sd
  | k + 1 => mtRound (mtA sd k)

/-- The mt19937 tempering of an extracted word. -/
def temper (x : Nat) : Nat :=
  let y1 := x ^^^ (x >>> 11)
  let y2 := y1 ^^^ Nat.land (y1 <<< 7) 2636928640
  let y3 := y2 ^^^ Nat.land (y2 <<< 15) 4022730752
  y3 ^^^ (y3 >>> 18)

/-- The `n`-th raw value produced by `rangen` in a run whose
`std::random_device` draw was `d`. -/
def rangenOut (d : Nat) (n : Nat) : Nat :=
  temper (mtA d (n / 624 + 1) (n % 624))

/-- The policy state at the start of a run whose `std::random_device`
draw was `d`: empty caches, empty stack, zero solutions, the engine
stream at position 0. -/
def initState (d : Nat) : RCState :=
  { opensel := ⟨fun _ => none, fun _ => none⟩
    stack := []
    distmap := fun _ => none
    rng := rangenOut d
    rix := 0
    nsol := 0 }

/-! ### The pole-pair registration loop of `GenerateSCM.cc`

A minimal atomspace model: atoms are records of a type and an outgoing
id list, an atomspace is an id-indexed association list.  The type
hierarchy fact needed (external to the embedded sources): `SetLink` is
an unordered link, `MemberLink` and `ListLink` are ordered. -/

/-- Atom types occurring in the pole-pair declarations. -/
inductive LType where
  | memberLink
  | setLink
  | listLink
  | concept
deriving DecidableEq

/-- An atom: its type and its outgoing atom ids. -/
structure AtomR where
  atype : LType
  out : List Nat
deriving DecidableEq

/-- An atomspace: association of atom ids to atoms. -/
abbrev ASpace := List (Nat × AtomR)

/-- Atom lookup by id (missing ids give an empty `ConceptNode`). -/
def getAtom (a : ASpace) (i : Nat) : AtomR :=
  (a.lookup i).getD ⟨LType.concept, []⟩

/-- `nameserver().isA(t, UNORDERED_LINK)` on the modelled types:
`SetLink` is the unordered link among them. -/
def isUnorderedT : LType → Bool
  | LType.setLink => true
  | _ => false

/-- `get_incoming_by_type(poles, MEMBER_LINK)`: ids of the atoms of the
given type whose outgoing set contains `target`. -/
def get_incoming_by_type (a : ASpace) (target : Nat) (t : LType) : List Nat :=
  (a.filter (fun p => p.2.atype == t && p.2.out.contains target)).map (fun p => p.1)

/-- The pole-pair registration loop of `GenerateSCM::do_random_aggregate`
as written: for each `MemberLink` incoming to `poles` whose outgoing
atom 1 is `poles`, it takes `p0`/`p1` to be outgoing atoms 0 and 1 *of
the member link itself* (`pole_pair` is the loop variable over the
incoming set), calls `dict.add_pole_pair(p0, p1)`, and adds the reverse
pair when the *member link's* type is an unordered link and `p0 ≠ p1`.
The result is the ordered list of `add_pole_pair` call arguments. -/
def polePairsRegistered (a : ASpace) (poles : Nat) : List (Nat × Nat) :=
  (get_incoming_by_type a poles LType.memberLink).foldr
    (fun pid rest =>
      let pp := getAtom a pid
      if pp.out.getD 1 poles ≠ poles then rest
      else
        let p0 := pp.out.getD 0 0
        let p1 := pp.out.getD 1 0
        (p0, p1) ::
          ((if isUnorderedT pp.atype = true ∧ p0 ≠ p1 then [(p1, p0)] else []) ++ rest))
    []

/-- Modelled from the spec: `register_pole_pair(typeA, typeB, symmetric)`
— for each pole-pair declaration `MemberLink(pair, poles)` the declared
compatibility `(typeA, typeB)` (the two outgoing atoms of the *pair*
atom) is registered, and when the pair atom is an unordered link
(symmetric declaration) and `typeA ≠ typeB` the reverse pair is
registered too. -/
def polePairsSpec (a : ASpace) (poles : Nat) : List (Nat × Nat) :=
  (get_incoming_by_type a poles LType.memberLink).foldr
    (fun pid rest =>
      let memb := getAtom a pid
      if memb.out.getD 1 poles ≠ poles then rest
      else
        let pr := getAtom a (memb.out.getD 0 0)
        let tA := pr.out.getD 0 0
        let tB := pr.out.getD 1 0
        (tA, tB) ::
          ((if isUnorderedT pr.atype = true ∧ tA ≠ tB then [(tB, tA)] else []) ++ rest))
    []

/-! ### List helper lemmas -/

theorem getD_map_weights (l : List Sect) (f : Sect → ℚ) :
    ∀ i, i < l.length → (l.map f).getD i 0 = f (l.getD i sdflt) := by
  induction l with
  | nil => intro i h; simp at h
  | cons a t ih =>
      intro i h
      cases i with
      | zero => rfl
      | succ j => exact ih j (by simpa using h)

theorem getD_mem_nat (l : List Nat) (d : Nat) :
    ∀ k, k < l.length → l.getD k d ∈ l := by
  induction l with
  | nil => intro k h; simp at h
  | cons a t ih =>
      intro k h
      cases k with
      | zero => exact List.mem_cons_self a t
      | succ j => exact List.mem_cons_of_mem a (ih j (by simpa using h))

theorem getD_mem_sect (l : List Sect) (d : Sect) :
    ∀ k, k < l.length → l.getD k d ∈ l := by
  induction l with
  | nil => intro k h; simp at h
  | cons a t ih =>
      intro k h
      cases k with
      | zero => exact List.mem_cons_self a t
      | succ j => exact List.mem_cons_of_mem a (ih j (by simpa using h))

theorem getD_index_of_mem (l : List Sect) (s : Sect) (h : s ∈ l) :
    ∃ i, i < l.length ∧ l.getD i sdflt = s := by
  induction l with
  | nil => simp at h
  | cons a t ih =>
      rcases List.mem_cons.mp h with h1 | h2
      · exact ⟨0, by simp, h1.symm⟩
      · rcases ih h2 with ⟨i, hi, hv⟩
        exact ⟨i + 1, by simpa using hi, hv⟩

theorem getD_replicate_one (n : Nat) :
    ∀ m, m < n → (List.replicate n (1 : ℚ)).getD m 0 = 1 := by
  induction n with
  | zero => intro m h; simp at h
  | succ k ih =>
      intro m h
      cases m with
      | zero => rfl
      | succ j => exact ih j (by omega)

theorem getD_range (n : Nat) :
    ∀ k, k < n → (List.range n).getD k 0 = k := by
  intro k h
  rw [List.getD_eq_getElem?_getD, List.getElem?_range h]
  rfl

/-- The uniform distribution built by `select_from_open` can select
every index of the candidate list. -/
theorem posIdxs_replicate (n : Nat) :
    posIdxs (List.replicate n (1 : ℚ)) = List.range n := by
  unfold posIdxs
  rw [List.length_replicate]
  apply List.filter_eq_self.mpr
  intro a ha
  have h : a < n := List.mem_range.mp ha
  rw [getD_replicate_one n a h]
  decide

theorem drawDist_replicate (n : Nat) (hn : 0 < n) (r : Nat) :
    drawDist (List.replicate n (1 : ℚ)) r = some (r % n) := by
  unfold drawDist
  rw [posIdxs_replicate]
  have hne : List.range n ≠ [] := by
    intro h
    have := congrArg List.length h
    simp at this
    omega
  rw [if_neg hne, List.length_range]
  exact congrArg some (getD_range n (r % n) (Nat.mod_lt r hn))

/-! ### C9 -/

/-- C9: `push_frame` and `pop_frame` leave the lexis-derived
distribution cache `_distmap` unchanged — for every connector type its
cached lexis distribution after either call equals the one before;
only the `OpenSelections` caches are saved / cleared / restored. -/
theorem C9_push_pop_distmap (st : RCState) (con : Con) :
    (pushFrame st).distmap con = st.distmap con ∧
    (popFrame st).distmap con = st.distmap con := by
  constructor
  · rfl
  · unfold popFrame
    cases st.stack <;> rfl

/-! ### C2 -/

/-- The state of a run (device seed 0) in which exactly `max_solutions`
solutions have already been recorded. -/
def c2AtCap : RCState := { initState 0 with nsol := 1 }

/-- C2: the claim fails on the code.  `RandomCallback::step` compares
with strict `<` (`max_solutions < _num_solutions_found`), so with
`max_solutions = 1` and the solution count already at the cap (1),
`step` still returns `true`, and a spec-conforming driver that finds a
solution on every step records a second solution: the counter reaches
`max_solutions + 1 = 2`, exceeding the configured cap. -/
theorem C2_solution_cap_overrun :
    rcStep ⟨1, true⟩ c2AtCap = true ∧
    (driveLoop ⟨1, true⟩ (fun _ => true) 5 (initState 0)).nsol = 2 := by
  exact ⟨rfl, rfl⟩

/-! ### C5 -/

/-- A pole set (atom 4) with one symmetric pole-pair declaration:
`MemberLink (SetLink A B) poles` with pole types `A` = atom 1 and
`B` = atom 2; the `SetLink` pair atom is atom 3, the member link
atom 5. -/
def c5AS : ASpace :=
  [(1, ⟨LType.concept, []⟩), (2, ⟨LType.concept, []⟩),
   (3, ⟨LType.setLink, [1, 2]⟩), (4, ⟨LType.concept, []⟩),
   (5, ⟨LType.memberLink, [3, 4]⟩)]

/-- C5: the claim fails on the code.  For a symmetric declaration
`MemberLink (SetLink A B) poles` the loop in `do_random_aggregate`
takes `p0`/`p1` from the outgoing set of the *member link* (its loop
variable `pole_pair` is the member link, not its outgoing atom 0), so it
registers the pair `(pair-atom 3, pole-set 4)` instead of the declared
compatibility `(A, B) = (1, 2)`; and since `MemberLink` is not an
unordered link, the reverse pair is never registered.  The
spec-modelled registration yields `[(1, 2), (2, 1)]`. -/
theorem C5_pole_pair_registration :
    polePairsRegistered c5AS 4 = [(3, 4)] ∧
    polePairsSpec c5AS 4 = [(1, 2), (2, 1)] := by
  exact ⟨rfl, rfl⟩

/-! ### C3 -/

/-- C3: counterexample to the claim as stated.  The draw sequence is a
function of the `std::random_device` value obtained at static
initialisation — an ambient input that the caller cannot supply and
that is not part of the Lexicon / pole table / configuration — and two
possible device values (0 and 1) give different first raw draws, so two
runs with identical caller inputs need not produce identical draw
sequences or byte-identical outputs. -/
theorem C3_device_seed_counterexample : rangenOut 0 0 ≠ rangenOut 1 0 := by
  decide

theorem mtInit_mod (d1 d2 : Nat) (h : d1 % 4294967296 = d2 % 4294967296) :
    ∀ i, mtInit d1 i = mtInit d2 i := by
  intro i
  induction i with
  | zero => exact h
  | succ j ih => simp [mtInit, ih]

theorem mtA_mod (d1 d2 : Nat) (h : d1 % 4294967296 = d2 % 4294967296) :
    ∀ k, mtA d1 k = mtA d2 k := by
  intro k
  induction k with
  | zero => exact funext (mtInit_mod d1 d2 h)
  | succ j ih => simp [mtA, ih]

/-- C3 (amended): the draw sequence is a deterministic function of the
mt19937 seed — any two runs whose `std::random_device` draws agree
modulo 2^32 produce identical raw-draw sequences, and hence identical
initial policy states; but that seed is not caller-suppliable. -/
theorem C3_seed_determinism (d1 d2 : Nat)
    (h : d1 % 4294967296 = d2 % 4294967296) :
    (∀ n, rangenOut d1 n = rangenOut d2 n) ∧
    (initState d1).rng = (initState d2).rng := by
  have hout : ∀ n, rangenOut d1 n = rangenOut d2 n := by
    intro n
    unfold rangenOut
    rw [mtA_mod d1 d2 h]
  exact ⟨hout, funext hout⟩

/-- Witness for the amended C3: device draws 2^32 and 0 coincide modulo
2^32 and indeed give the same first raw draw. -/
theorem C3_seed_determinism_witness : rangenOut 4294967296 0 = rangenOut 0 0 :=
  (C3_seed_determinism 4294967296 0 (by decide)).1 0

/-! ### C1 -/

/-- Two open sections, each carrying one connector of type 9. -/
def c1A : Sect := ⟨1, [9]⟩

def c1B : Sect := ⟨2, [9]⟩

def c1Frame : Frame' := ⟨[c1A, c1B]⟩

/-- A run state whose remaining raw draws are all 1 (each draw from the
uniform two-candidate distribution then selects index 1; under the real
engine every index occurs with positive probability, so this is a
positive-probability draw sequence). -/
def c1St0 : RCState := { initState 0 with rng := fun _ => 1 }

/-- The policy state after a first `select_from_open` call (requester
`c1A`), which created and cached the uniform distribution for connector
type 9. -/
def c1St1 : RCState :=
  ((selectFromOpen c1Frame c1A 9 c1St0 2).getD (none, c1St0)).2

/-- C1: the claim fails on the code.  The first call (requester `c1A`)
performs rejection sampling and correctly returns `c1B`, caching the
candidate list `[c1A, c1B]` and the uniform distribution for connector
type 9.  The second call, with requester `c1B`, takes the
cached-distribution branch, which draws and returns
`to_sects[dist(rangen)]` without any self check — and returns `c1B`,
the requesting section itself, producing the self-loop the claim (and
the function's own comment) rules out. -/
theorem C1_cached_self_loop :
    (selectFromOpen c1Frame c1A 9 c1St0 2).map Prod.fst = some (some c1B) ∧
    c1St1.opensel.opendi 9 = some [1, 1] ∧
    (selectFromOpen c1Frame c1B 9 c1St1 1).map Prod.fst = some (some c1B) := by
  exact ⟨rfl, rfl, rfl⟩

/-! ### C4 -/

/-- The operations a driver can interleave between a `push_frame` and
its matching `pop_frame`, as seen by the policy state: nested
`push_frame` / `pop_frame` pairs and arbitrary state mutations `mod f`
(covering `select_from_open`, `select_from_lexis`, `step` and
`solution`, none of which touches `_opensel_stack`). -/
inductive DrvOp where
  | push
  | pop
  | mod (f : RCState → RCState)

def applyDrv : DrvOp → RCState → RCState
  | DrvOp.push, st => pushFrame st
  | DrvOp.pop, st => popFrame st
  | DrvOp.mod f, st => f st

def runDrv : List DrvOp → RCState → RCState
  | [], st => st
  | op :: rest, st => runDrv rest (applyDrv op st)

/-- Strictly nested (balanced) operation sequences: every `pop` matches
a `push` inside the sequence. -/
inductive Nested : List DrvOp → Prop where
  | nil : Nested []
  | mod (f : RCState → RCState) (rest : List DrvOp) :
      Nested rest → Nested (DrvOp.mod f :: rest)
  | frame (inner rest : List DrvOp) : Nested inner → Nested rest →
      Nested (DrvOp.push :: inner ++ DrvOp.pop :: rest)

/-- Every interleaved mutation leaves `_opensel_stack` alone (true of
every `RandomCallback` method other than `push_frame`/`pop_frame`). -/
def ModsKeepStack (ops : List DrvOp) : Prop :=
  ∀ f, DrvOp.mod f ∈ ops → ∀ st, (f st).stack = st.stack

theorem runDrv_append (a b : List DrvOp) :
    ∀ st, runDrv (a ++ b) st = runDrv b (runDrv a st) := by
  induction a with
  | nil => intro st; rfl
  | cons op rest ih => intro st; simpa [runDrv] using ih (applyDrv op st)

theorem nested_stack (ops : List DrvOp) (h : Nested ops)
    (hm : ModsKeepStack ops) : ∀ st, (runDrv ops st).stack = st.stack := by
  induction h with
  | nil => intro st; rfl
  | mod f rest _ ih =>
      intro st
      have h1 : (runDrv rest (f st)).stack = (f st).stack :=
        ih (fun g hg st2 => hm g (List.mem_cons_of_mem _ hg) st2) (f st)
      have h2 : (f st).stack = st.stack := hm f (List.mem_cons_self _ _) st
      simpa [runDrv, applyDrv, h2] using h1
  | frame inner rest _ _ ihInner ihRest =>
      intro st
      have hmInner : ModsKeepStack inner := by
        intro g hg st2
        exact hm g (by simp [hg]) st2
      have hmRest : ModsKeepStack rest := by
        intro g hg st2
        exact hm g (by simp [hg]) st2
      have hInner : (runDrv inner (pushFrame st)).stack = (pushFrame st).stack :=
        ihInner hmInner (pushFrame st)
      have hPopStack : (popFrame (runDrv inner (pushFrame st))).stack = st.stack := by
        unfold popFrame
        rw [hInner]
        rfl
      calc (runDrv (DrvOp.push :: inner ++ DrvOp.pop :: rest) st).stack
          = (runDrv rest (popFrame (runDrv inner (pushFrame st)))).stack := by
            rw [show DrvOp.push :: inner ++ DrvOp.pop :: rest
                  = (DrvOp.push :: inner) ++ (DrvOp.pop :: rest) from rfl,
                runDrv_append]
            rfl
        _ = (popFrame (runDrv inner (pushFrame st))).stack := ihRest hmRest _
        _ = st.stack := hPopStack

/-- C4: backtrack correctness.  For any strictly nested intervening
sequence (nested `push_frame`/`pop_frame` pairs plus arbitrary
stack-preserving cache mutations), the `OpenSelections` record — both
the open-connector candidate-list cache `_opensect` and the
open-connector distribution cache `_opendi` — immediately after the
`pop_frame` matching a `push_frame` is identical to its state
immediately before that `push_frame`, regardless of what the
intervening branch stored in the caches. -/
theorem C4_pop_restores (ops : List DrvOp) (st : RCState)
    (h : Nested ops) (hm : ModsKeepStack ops) :
    (runDrv (DrvOp.push :: ops ++ [DrvOp.pop]) st).opensel = st.opensel ∧
    (runDrv (DrvOp.push :: ops ++ [DrvOp.pop]) st).opensel.opensect
      = st.opensel.opensect ∧
    (runDrv (DrvOp.push :: ops ++ [DrvOp.pop]) st).opensel.opendi
      = st.opensel.opendi := by
  have hInner : (runDrv ops (pushFrame st)).stack = (pushFrame st).stack :=
    nested_stack ops h hm (pushFrame st)
  have hrun : runDrv (DrvOp.push :: ops ++ [DrvOp.pop]) st
      = popFrame (runDrv ops (pushFrame st)) := by
    rw [show DrvOp.push :: ops ++ [DrvOp.pop]
          = (DrvOp.push :: ops) ++ [DrvOp.pop] from rfl,
        runDrv_append]
    rfl
  have hopen : (popFrame (runDrv ops (pushFrame st))).opensel = st.opensel := by
    unfold popFrame
    rw [hInner]
    rfl
  rw [hrun, hopen]
  exact ⟨rfl, rfl, rfl⟩

/-- A concrete intervening mutation: clobbers both open caches and the
lexis cache, bumps the solution counter, leaves the stack alone. -/
def c4Mod : RCState → RCState := fun st =>
  { st with opensel := ⟨fun _ => some [], fun _ => some [1]⟩,
            distmap := fun _ => none,
            nsol := st.nsol + 7 }

/-- Witness for C4 at a concrete nested sequence. -/
theorem C4_pop_restores_witness :
    (runDrv (DrvOp.push :: [DrvOp.mod c4Mod] ++ [DrvOp.pop])
        (initState 0)).opensel = (initState 0).opensel ∧
    (runDrv (DrvOp.push :: [DrvOp.mod c4Mod] ++ [DrvOp.pop])
        (initState 0)).opensel.opensect = (initState 0).opensel.opensect ∧
    (runDrv (DrvOp.push :: [DrvOp.mod c4Mod] ++ [DrvOp.pop])
        (initState 0)).opensel.opendi = (initState 0).opensel.opendi :=
  C4_pop_restores [DrvOp.mod c4Mod] (initState 0)
    (Nested.mod c4Mod [] Nested.nil)
    (by
      intro f hf st
      simp only [List.mem_singleton] at hf
      injection hf with h1
      subst h1
      rfl)

/-! ### C6 -/

/-- Lexicon fragment with two candidate sections for connector type 9
and no weight stored on either (every weight lookup fails). -/
def c6L : List Sect := [⟨1, [9]⟩, ⟨2, [9]⟩]

def c6W : Sect → Option ℚ := fun _ => none

def c6Sections : Con → List Sect := fun _ => c6L

/-- C6: counterexample to the claim as stated.  "An all-zero weight set
never selects any candidate of that type" is not what the code does:
with every weight lookup failing, the pdf is all zeros, the constructed
`std::discrete_distribution` has zero total weight (a violated
precondition — the deployed libstdc++ then returns index 0), and
`select_from_lexis` unconditionally returns
`create_unique_section(to_sects[dist(rangen)])` whenever candidates
exist — here the first candidate, never `Handle::UNDEFINED`. -/
theorem C6_zero_weight_selects :
    drawDist (lexPdf c6L c6W) 0 = some 0 ∧
    (selectFromLexis c6Sections c6W id 9 (initState 0)).1 = some ⟨1, [9]⟩ := by
  exact ⟨rfl, rfl⟩

/-- C6 (amended): the weighted lexis distribution.  (i) The pdf built by
`select_from_lexis` gives each candidate exactly its registered weight
value, with a failed weight lookup contributing `0` (not a default of
`1`); (ii) whenever at least one candidate has positive registered
weight, any draw selects only candidates of positive weight; but
(iii) an all-zero weight set does not degenerate to never selecting:
it violates the distribution's positivity precondition, the draw
(modelled after the deployed libstdc++) returns index 0, and
`select_from_lexis` returns the first candidate, not the absent
value. -/
theorem C6_lexis_weights_amended (l : List Sect) (getW : Sect → Option ℚ) :
    (∀ i, i < l.length →
      (lexPdf l getW).getD i 0 = (getW (l.getD i sdflt)).getD 0) ∧
    ((∃ s ∈ l, 0 < (getW s).getD 0) →
      ∀ r i, drawDist (lexPdf l getW) r = some i →
        0 < (getW (l.getD i sdflt)).getD 0) ∧
    ((∀ s ∈ l, (getW s).getD 0 = 0) →
      (∀ r, drawDist (lexPdf l getW) r = some 0) ∧
      (∀ (sections : Con → List Sect) (uniq : Sect → Sect) (to_con : Con)
          (st : RCState), sections to_con = l → l ≠ [] →
        st.distmap to_con = none →
        (selectFromLexis sections getW uniq to_con st).1
          = some (uniq (l.getD 0 sdflt)))) := by
  have hlen : (lexPdf l getW).length = l.length := by
    simp [lexPdf]
  have hpdf : ∀ i, i < l.length →
      (lexPdf l getW).getD i 0 = (getW (l.getD i sdflt)).getD 0 :=
    getD_map_weights l (fun s => (getW s).getD 0)
  refine ⟨hpdf, ?_, ?_⟩
  · -- (ii): with some positive weight, draws select only positive-weight
    -- candidates
    intro hpos r i h
    have hne : posIdxs (lexPdf l getW) ≠ [] := by
      rcases hpos with ⟨s, hs, hw⟩
      rcases getD_index_of_mem l s hs with ⟨i0, hi0, hv0⟩
      intro hnil
      have hmem : i0 ∈ posIdxs (lexPdf l getW) := by
        unfold posIdxs
        apply List.mem_filter.mpr
        constructor
        · exact List.mem_range.mpr (by omega)
        · simp only [decide_eq_true_eq]
          rw [hpdf i0 hi0, hv0]
          exact hw
      rw [hnil] at hmem
      exact absurd hmem (List.not_mem_nil i0)
    unfold drawDist at h
    rw [if_neg hne] at h
    have hlp : 0 < (posIdxs (lexPdf l getW)).length :=
      List.length_pos.mpr hne
    have hmem : i ∈ posIdxs (lexPdf l getW) := by
      have hg := getD_mem_nat (posIdxs (lexPdf l getW)) 0
        (r % (posIdxs (lexPdf l getW)).length) (Nat.mod_lt r hlp)
      rw [Option.some_inj.mp h] at hg
      exact hg
    unfold posIdxs at hmem
    have hmem2 := List.mem_filter.mp hmem
    have hi : i < l.length := by
      have := List.mem_range.mp hmem2.1
      omega
    have hposv : 0 < (lexPdf l getW).getD i 0 := by
      have := hmem2.2
      simpa using this
    rw [hpdf i hi] at hposv
    exact hposv
  · -- (iii): with all weights zero the draw returns index 0 and
    -- select_from_lexis returns the first candidate
    intro hall
    have hnil : posIdxs (lexPdf l getW) = [] := by
      unfold posIdxs
      apply List.filter_eq_nil_iff.mpr
      intro a ha
      have hi : a < l.length := by
        have := List.mem_range.mp ha
        omega
      have h1 : (lexPdf l getW).getD a 0 = 0 := by
        rw [hpdf a hi]
        exact hall (l.getD a sdflt) (getD_mem_sect l sdflt a hi)
      simp only [decide_eq_true_eq]
      rw [h1]
      exact lt_irrefl 0
    have hd : ∀ r, drawDist (lexPdf l getW) r = some 0 := by
      intro r
      unfold drawDist
      rw [if_pos hnil]
    refine ⟨hd, ?_⟩
    intro sections uniq to_con st hsec hlne hdm
    unfold selectFromLexis
    rw [hsec, if_neg hlne, hdm]
    simp only []
    rw [hd]
    rfl

/-- Lexicon fragment for the amended C6 witness: the first candidate
has no stored weight, the second has weight 1. -/
def c6Lw : List Sect := [⟨1, [9]⟩, ⟨2, [9]⟩]

def c6Ww : Sect → Option ℚ := fun s => if s.sid = 2 then some 1 else none

/-- Witness for the amended C6: the pdf entry equals the registered
weight, a draw from the mixed-weight pdf selects the positive-weight
candidate, and with all lookups failing the draw returns index 0 and
`select_from_lexis` returns the first candidate. -/
theorem C6_lexis_weights_amended_witness :
    (lexPdf c6Lw c6Ww).getD 1 0 = (c6Ww (c6Lw.getD 1 sdflt)).getD 0 ∧
    (0 : ℚ) < (c6Ww (c6Lw.getD 1 sdflt)).getD 0 ∧
    drawDist (lexPdf c6L c6W) 3 = some 0 ∧
    (selectFromLexis c6Sections c6W (fun s => s) 9 (initState 0)).1
      = some (c6L.getD 0 sdflt) :=
  ⟨(C6_lexis_weights_amended c6Lw c6Ww).1 1 (by decide),
   (C6_lexis_weights_amended c6Lw c6Ww).2.1
     ⟨⟨2, [9]⟩, by decide, by decide⟩ 7 1 (by decide),
   ((C6_lexis_weights_amended c6L c6W).2.2 (fun _ _ => rfl)).1 3,
   ((C6_lexis_weights_amended c6L c6W).2.2 (fun _ _ => rfl)).2
     c6Sections (fun s => s) 9 (initState 0) rfl (by decide) rfl⟩

/-! ### C7 -/

/-- C7: dead ends are signalled by the absent value, not an exception.
When the open-frontier attempt finds no candidate (result
`Handle::UNDEFINED`) and the Lexicon has no candidate sequence for the
requested connector type, `select` returns `Handle::UNDEFINED`.  (The
embedding of `select` and both selectors is a total function whose
dead-end outcome is the ordinary value `none` — no exceptional control
flow exists on this path.) -/
theorem C7_dead_end (sections : Con → List Sect) (getW : Sect → Option ℚ)
    (uniq : Sect → Sect) (frame : Frame') (fm_sect : Sect) (to_con : Con)
    (st : RCState) (fuel : Nat)
    (hopen : (selectFromOpen frame fm_sect to_con st fuel).map Prod.fst
      = some none)
    (hlex : sections to_con = []) :
    (selectC true sections getW uniq frame fm_sect to_con st fuel).map Prod.fst
      = some none := by
  cases hsel : selectFromOpen frame fm_sect to_con st fuel with
  | none =>
      rw [hsel] at hopen
      exact absurd hopen (by simp)
  | some p =>
      rw [hsel] at hopen
      have hp1 : p.1 = none := by
        simpa using hopen
      unfold selectC
      rw [if_pos rfl, hsel]
      cases hp : p.1 with
      | some h => rw [hp] at hp1; exact absurd hp1 (by simp)
      | none =>
          have hpeq : p = (none, p.2) := by
            cases p with
            | mk a b => simp at hp; rw [hp]
          rw [hpeq]
          simp only []
          unfold selectFromLexis
          rw [hlex, if_pos rfl]
          rfl

/-- An empty frame: the open-frontier scan finds nothing. -/
def c7Frame : Frame' := ⟨[]⟩

def c7Sections : Con → List Sect := fun _ => []

/-- Witness for C7: empty frontier and empty Lexicon candidate sequence
give the absent value. -/
theorem C7_dead_end_witness :
    (selectC true c7Sections (fun _ => none) id c7Frame ⟨1, [9]⟩ 9
        (initState 0) 1).map Prod.fst = some none :=
  C7_dead_end c7Sections (fun _ => none) id c7Frame ⟨1, [9]⟩ 9
    (initState 0) 1 rfl rfl

/-! ### C8 -/

theorem redrawFind_succeeds (l : List Sect) (fm : Sect) (pdf : List ℚ)
    (rng : Nat → Nat) :
    ∀ fuel rix k, rix ≤ k → k < rix + fuel →
      l.getD ((drawDist pdf (rng k)).getD 0) sdflt ≠ fm →
      ∃ j, redrawFind l fm pdf rng rix fuel = some j ∧
        l.getD ((drawDist pdf (rng j)).getD 0) sdflt ≠ fm := by
  intro fuel
  induction fuel with
  | zero => intro rix k h1 h2 _; omega
  | succ f ih =>
      intro rix k h1 h2 hk
      by_cases hr : l.getD ((drawDist pdf (rng rix)).getD 0) sdflt ≠ fm
      · refine ⟨rix, ?_, hr⟩
        unfold redrawFind
        rw [if_pos hr]
      · have hne : rix ≠ k := by
          intro he
          rw [he] at hr
          exact hr hk
        have h3 : rix + 1 ≤ k := by omega
        have h4 : k < (rix + 1) + f := by omega
        rcases ih (rix + 1) k h3 h4 hk with ⟨j, hj, hnj⟩
        refine ⟨j, ?_, hnj⟩
        unfold redrawFind
        rw [if_neg hr]
        exact hj

/-- C8: termination of the redraw loop.  Under the preconditions
established before the loop — at least two candidates, at least one of
them a section distinct from the requester `fm_sect` (the only-self
existence check), every candidate carrying the positive uniform weight
`1.0` — and under the statistical guarantee of the random stream made
explicit (`hfair`: every index of the uniform distribution occurs again
and again among the raw draws, which is the deterministic rendering of
"repeated draws from the uniform distribution eventually yield each
positive-probability index"), `select_from_open` terminates for some
fuel, returning a candidate of the list that is not the requester. -/
theorem C8_redraw_terminates (frame : Frame') (fm_sect : Sect)
    (to_con : Con) (st : RCState)
    (hguard : ∀ l0, st.opensel.opensect to_con = some l0 → l0 ≠ [])
    (hdi : st.opensel.opendi to_con = none)
    (hlen : 2 ≤ (collectOpen frame.open_sections to_con).length)
    (hself : ∃ s ∈ collectOpen frame.open_sections to_con, s ≠ fm_sect)
    (hfair : ∀ i, i < (collectOpen frame.open_sections to_con).length →
      ∀ m, ∃ k, m ≤ k ∧
        st.rng k % (collectOpen frame.open_sections to_con).length = i) :
    ∃ fuel c st1,
      selectFromOpen frame fm_sect to_con st fuel = some (some c, st1) ∧
      c ≠ fm_sect ∧ c ∈ collectOpen frame.open_sections to_con := by
  have hnpos : 0 < (collectOpen frame.open_sections to_con).length := by omega
  -- index form of the only-self existence check
  rcases hself with ⟨s, hsmem, hsne⟩
  rcases getD_index_of_mem (collectOpen frame.open_sections to_con) s hsmem
    with ⟨i0, hi0, hv0⟩
  -- a raw draw at or after the current stream position selecting i0
  rcases hfair i0 hi0 st.rix with ⟨k, hk1, hk2⟩
  have hkdraw : (collectOpen frame.open_sections to_con).getD
      ((drawDist (List.replicate
        (collectOpen frame.open_sections to_con).length (1 : ℚ))
        (st.rng k)).getD 0) sdflt ≠ fm_sect := by
    rw [drawDist_replicate _ hnpos, Option.getD_some, hk2, hv0]
    exact hsne
  rcases redrawFind_succeeds (collectOpen frame.open_sections to_con) fm_sect
      (List.replicate (collectOpen frame.open_sections to_con).length (1 : ℚ))
      st.rng (k - st.rix + 1) st.rix k hk1 (by omega) hkdraw
    with ⟨j, hj, hnj⟩
  have hg : ¬ (st.opensel.opensect to_con = some []) := by
    intro he
    cases hsect : st.opensel.opensect to_con with
    | none => rw [hsect] at he; exact Option.noConfusion he
    | some l0 =>
        rw [hsect] at he
        exact hguard l0 hsect (Option.some_inj.mp he)
  have hnil : ¬ (collectOpen frame.open_sections to_con = []) := by
    intro h0
    rw [h0] at hlen
    simp at hlen
  have hone : ¬ ((collectOpen frame.open_sections to_con).length = 1) := by
    omega
  have honly : ¬ (True ∧
      ∀ s2 ∈ collectOpen frame.open_sections to_con, s2 = fm_sect) := by
    intro hco
    exact hsne (hco.2 s hsmem)
  have h1 : selectFromOpen frame fm_sect to_con st (k - st.rix + 1)
      = sfoFresh frame fm_sect to_con st (k - st.rix + 1) := by
    unfold selectFromOpen
    rw [if_neg hg, hdi]
  have h2 : sfoFresh frame fm_sect to_con st (k - st.rix + 1)
      = some (some ((collectOpen frame.open_sections to_con).getD
          ((drawDist (List.replicate
              (collectOpen frame.open_sections to_con).length (1 : ℚ))
            (st.rng j)).getD 0) sdflt),
        { st with
            opensel :=
              ⟨updF st.opensel.opensect to_con
                  (collectOpen frame.open_sections to_con),
               updF st.opensel.opendi to_con
                  (List.replicate
                    (collectOpen frame.open_sections to_con).length (1 : ℚ))⟩,
            rix := j + 1 }) := by
    unfold sfoFresh
    simp only []
    rw [if_neg hnil, if_neg hone, if_neg honly,
        if_neg (by decide : ¬ (true : Bool) = false), hj]
  have heq := h1.trans h2
  refine ⟨k - st.rix + 1, _, _, heq, hnj, ?_⟩
  have hmod : st.rng j % (collectOpen frame.open_sections to_con).length
      < (collectOpen frame.open_sections to_con).length :=
    Nat.mod_lt _ hnpos
  rw [drawDist_replicate _ hnpos, Option.getD_some]
  exact getD_mem_sect _ sdflt _ hmod

/-- Frame and requester for the C8 witness. -/
def c8A : Sect := ⟨1, [9]⟩

def c8B : Sect := ⟨2, [9]⟩

def c8Frame : Frame' := ⟨[c8A, c8B]⟩

/-- A run state whose raw draws enumerate the naturals (so every index
of a uniform distribution is drawn again and again). -/
def c8St : RCState := { initState 0 with rng := fun k => k }

/-- Witness for C8 at a concrete two-candidate frontier. -/
theorem C8_redraw_terminates_witness :
    ∃ fuel c st1,
      selectFromOpen c8Frame c8A 9 c8St fuel = some (some c, st1) ∧
      c ≠ c8A ∧ c ∈ collectOpen c8Frame.open_sections 9 :=
  C8_redraw_terminates c8Frame c8A 9 c8St
    (fun l0 h => Option.noConfusion h)
    rfl
    (by decide)
    ⟨c8B, by decide, by decide⟩
    (by
      intro i hi m
      have hl : (collectOpen c8Frame.open_sections 9).length = 2 := rfl
      rw [hl] at hi
      rw [hl]
      show ∃ k, m ≤ k ∧ k % 2 = i
      exact ⟨2 * m + 2 + i, by omega, by omega⟩)

/-! ### C10 -/

/-- The open-selection cache invariant: every connector type with a
cached open distribution also has a cached candidate list of at least
two sections. -/
def InvSel (o : OpenSel) : Prop :=
  ∀ c pdf, o.opendi c = some pdf → ∃ l, o.opensect c = some l ∧ 2 ≤ l.length

/-- The invariant over the whole policy state: it holds of the current
`OpenSelections` and of every record saved on `_opensel_stack`. -/
def InvSt (st : RCState) : Prop :=
  InvSel st.opensel ∧ ∀ o ∈ st.stack, InvSel o

theorem InvSt_opensect_update (st : RCState) (hInv : InvSt st) (c : Con)
    (L : List Sect) (hdi : st.opensel.opendi c = none) :
    InvSt { st with opensel := { st.opensel with
      opensect := updF st.opensel.opensect c L } } := by
  constructor
  · intro c2 pdf2 h2
    by_cases hc : c2 = c
    · subst hc
      rw [show ({ st with opensel := { st.opensel with
            opensect := updF st.opensel.opensect c2 L } } :
          RCState).opensel.opendi c2 = st.opensel.opendi c2 from rfl, hdi] at h2
      exact Option.noConfusion h2
    · rcases hInv.1 c2 pdf2 h2 with ⟨l, hl, hlen⟩
      refine ⟨l, ?_, hlen⟩
      rw [show ({ st with opensel := { st.opensel with
            opensect := updF st.opensel.opensect c L } } :
          RCState).opensel.opensect c2
          = updF st.opensel.opensect c L c2 from rfl,
        updF_ne _ _ _ _ hc]
      exact hl
  · exact hInv.2

theorem InvSt_both_update (st : RCState) (hInv : InvSt st) (c : Con)
    (L : List Sect) (pdf : List ℚ) (hL : 2 ≤ L.length) :
    InvSt { st with opensel :=
      ⟨updF st.opensel.opensect c L, updF st.opensel.opendi c pdf⟩ } := by
  constructor
  · intro c2 pdf2 h2
    by_cases hc : c2 = c
    · subst hc
      exact ⟨L, updF_self _ _ _, hL⟩
    · rw [show ({ st with opensel :=
            ⟨updF st.opensel.opensect c L, updF st.opensel.opendi c pdf⟩ } :
          RCState).opensel.opendi c2 = updF st.opensel.opendi c pdf c2 from rfl,
        updF_ne _ _ _ _ hc] at h2
      rcases hInv.1 c2 pdf2 h2 with ⟨l, hl, hlen⟩
      refine ⟨l, ?_, hlen⟩
      rw [show ({ st with opensel :=
            ⟨updF st.opensel.opensect c L, updF st.opensel.opendi c pdf⟩ } :
          RCState).opensel.opensect c2 = updF st.opensel.opensect c L c2 from rfl,
        updF_ne _ _ _ _ hc]
      exact hl
  · exact hInv.2

theorem sfoFresh_inv (frame : Frame') (fm : Sect) (to_con : Con)
    (st : RCState) (fuel : Nat) (hInv : InvSt st)
    (hdi : st.opensel.opendi to_con = none) :
    ∀ r st1, sfoFresh frame fm to_con st fuel = some (r, st1) → InvSt st1 := by
  intro r st1 h
  have hbase := InvSt_opensect_update st hInv to_con
    (collectOpen frame.open_sections to_con) hdi
  unfold sfoFresh at h
  simp only [] at h
  by_cases hnil : collectOpen frame.open_sections to_con = []
  · rw [if_pos hnil] at h
    simp only [Option.some.injEq, Prod.mk.injEq] at h
    rw [← h.2]
    exact hbase
  · rw [if_neg hnil] at h
    by_cases hone : (collectOpen frame.open_sections to_con).length = 1
    · rw [if_pos hone] at h
      by_cases hc1 : True ∧
          (collectOpen frame.open_sections to_con).getD 0 sdflt ≠ fm
      · rw [if_pos hc1] at h
        simp only [Option.some.injEq, Prod.mk.injEq] at h
        rw [← h.2]
        exact hbase
      · rw [if_neg hc1] at h
        simp only [Option.some.injEq, Prod.mk.injEq] at h
        rw [← h.2]
        exact hbase
    · rw [if_neg hone] at h
      by_cases hall : True ∧
          ∀ s ∈ collectOpen frame.open_sections to_con, s = fm
      · rw [if_pos hall] at h
        simp only [Option.some.injEq, Prod.mk.injEq] at h
        rw [← h.2]
        exact hbase
      · rw [if_neg hall,
            if_neg (show ¬ ((true : Bool) = false) by decide)] at h
        have hlen2 : 2 ≤ (collectOpen frame.open_sections to_con).length := by
          have hpos : 0 < (collectOpen frame.open_sections to_con).length :=
            List.length_pos.mpr hnil
          omega
        have hboth := InvSt_both_update st hInv to_con
          (collectOpen frame.open_sections to_con)
          (List.replicate (collectOpen frame.open_sections to_con).length 1)
          hlen2
        cases hrf : redrawFind (collectOpen frame.open_sections to_con) fm
            (List.replicate (collectOpen frame.open_sections to_con).length 1)
            st.rng st.rix fuel with
        | none =>
            rw [hrf] at h
            exact Option.noConfusion h
        | some j =>
            rw [hrf] at h
            simp only [Option.some.injEq, Prod.mk.injEq] at h
            rw [← h.2]
            exact hboth

theorem selectFromOpen_inv (frame : Frame') (fm : Sect) (to_con : Con)
    (st : RCState) (fuel : Nat) (hInv : InvSt st) :
    ∀ r st1, selectFromOpen frame fm to_con st fuel = some (r, st1) →
      InvSt st1 := by
  intro r st1 h
  unfold selectFromOpen at h
  by_cases hg : st.opensel.opensect to_con = some []
  · rw [if_pos hg] at h
    simp only [Option.some.injEq, Prod.mk.injEq] at h
    rw [← h.2]
    exact hInv
  · rw [if_neg hg] at h
    cases hdi : st.opensel.opendi to_con with
    | some pdf =>
        rw [hdi] at h
        simp only [] at h
        cases hsect : st.opensel.opensect to_con with
        | some l =>
            rw [hsect] at h
            simp only [Option.some.injEq, Prod.mk.injEq] at h
            rw [← h.2]
            exact hInv
        | none =>
            rw [hsect] at h
            simp only [Option.some.injEq, Prod.mk.injEq] at h
            rw [← h.2]
            exact hInv
    | none =>
        rw [hdi] at h
        simp only [] at h
        exact sfoFresh_inv frame fm to_con st fuel hInv hdi r st1 h

theorem pushFrame_inv (st : RCState) (hInv : InvSt st) :
    InvSt (pushFrame st) := by
  constructor
  · intro c pdf h
    exact Option.noConfusion h
  · intro o ho
    rcases List.mem_cons.mp ho with h1 | h2
    · rw [h1]
      exact hInv.1
    · exact hInv.2 o h2

theorem popFrame_inv (st : RCState) (hInv : InvSt st) :
    InvSt (popFrame st) := by
  unfold popFrame
  cases hst : st.stack with
  | nil => exact hInv
  | cons o rest =>
      constructor
      · exact hInv.2 o (by rw [hst]; exact List.mem_cons_self o rest)
      · intro o2 ho2
        exact hInv.2 o2 (by rw [hst]; exact List.mem_cons_of_mem o ho2)

/-- The policy operations that touch the open-selection state:
`select_from_open` calls (the state transformer of a terminating call;
a call whose redraw loop does not terminate never returns, so its
continuation state is irrelevant and modelled as unchanged),
`push_frame`, and `pop_frame`. -/
inductive PolOp where
  | sopen (frame : Frame') (fm : Sect) (to_con : Con) (fuel : Nat)
  | push
  | pop

def applyPol : PolOp → RCState → RCState
  | PolOp.sopen frame fm to_con fuel, st =>
      match selectFromOpen frame fm to_con st fuel with
      | some (_, st1) => st1
      | none => st
  | PolOp.push, st => pushFrame st
  | PolOp.pop, st => popFrame st

def runPol : List PolOp → RCState → RCState
  | [], st => st
  | op :: rest, st => runPol rest (applyPol op st)

theorem applyPol_inv (op : PolOp) (st : RCState) (hInv : InvSt st) :
    InvSt (applyPol op st) := by
  cases op with
  | sopen frame fm to_con fuel =>
      unfold applyPol
      simp only []
      cases hsel : selectFromOpen frame fm to_con st fuel with
      | none => exact hInv
      | some p =>
          cases p with
          | mk r st1 =>
              exact selectFromOpen_inv frame fm to_con st fuel hInv r st1 hsel
  | push => exact pushFrame_inv st hInv
  | pop => exact popFrame_inv st hInv

theorem runPol_inv (ops : List PolOp) :
    ∀ st, InvSt st → InvSt (runPol ops st) := by
  induction ops with
  | nil => intro st h; exact h
  | cons op rest ih => intro st h; exact ih (applyPol op st) (applyPol_inv op st h)

theorem initState_inv (d : Nat) : InvSt (initState d) := by
  constructor
  · intro c pdf h
    exact Option.noConfusion h
  · intro o ho
    exact absurd ho (List.not_mem_nil o)

/-- C10: invariant of the open-selection state, preserved by every
sequence of policy operations (`select_from_open`, `push_frame`,
`pop_frame`) from the initial state: every connector type holding an
entry in the open-distribution cache also holds an entry in the
open-candidate-list cache with at least two sections — so the
cached-distribution branch of `select_from_open` always finds a
(non-empty) candidate list to index into. -/
theorem C10_opendi_inv (ops : List PolOp) (d : Nat) (c : Con)
    (pdf : List ℚ)
    (h : (runPol ops (initState d)).opensel.opendi c = some pdf) :
    ∃ l, (runPol ops (initState d)).opensel.opensect c = some l ∧
      2 ≤ l.length :=
  (runPol_inv ops (initState d) (initState_inv d)).1 c pdf h

def c10A : Sect := ⟨1, [9]⟩

def c10B : Sect := ⟨2, [9]⟩

def c10Frame : Frame' := ⟨[c10A, c10B]⟩

/-- Witness for C10: one `select_from_open` call on a two-candidate
frontier (with the real mt19937 stream of device seed 0) caches the
uniform distribution for connector type 9, and the invariant yields its
cached candidate list. -/
theorem C10_opendi_inv_witness :
    ∃ l, (runPol [PolOp.sopen c10Frame c10A 9 5]
        (initState 0)).opensel.opensect 9 = some l ∧ 2 ≤ l.length :=
  C10_opendi_inv [PolOp.sopen c10Frame c10A 9 5] 0 9 [1, 1] (by decide)

end Generate
